import Mathlib

/-!
Shallow embedding of the portfolio accounting engine of
`src/src/bushra_p2.py` (class `CryptoPortfolio`, with `Transaction` and the
price source `PullData.get_current_price` abstracted as a lookup function).

Python floats are modelled as rationals.  A holding is the dict
`{'amount': ..., 'avg_buy_price': ...}`; the holdings mapping is an
insertion-ordered association list (Python dict semantics: update in place,
delete removes the entry).  A method call is a function from the portfolio
state to the new state paired with an outcome; Python exceptions raised
midway leave the mutations already performed in place, exactly as the
interpreter does.
-/

namespace Crypto

/-- Per-asset holding record, the dict stored in `CryptoPortfolio._holdings`. -/
structure Holding where
  amount : ℚ
  avg_buy_price : ℚ
deriving DecidableEq

/-- The holdings mapping: insertion-ordered association list keyed by crypto id. -/
abbrev Holdings := List (String × Holding)

/-- Dict lookup: first (unique) binding of the key. -/
def lookupH : Holdings → String → Option Holding
  | [], _ => none
  | (k, v) :: rest, key => if k = key then some v else lookupH rest key

/-- Dict assignment: replace the binding in place if present, else append. -/
def updateH : Holdings → String → Holding → Holdings
  | [], key, v => [(key, v)]
  | (k, w) :: rest, key, v =>
      if k = key then (key, v) :: rest else (k, w) :: updateH rest key v

/-- Dict deletion (`del`): drop the binding of the key. -/
def eraseH : Holdings → String → Holdings
  | [], _ => []
  | (k, w) :: rest, key => if k = key then rest else (k, w) :: eraseH rest key

/-- Transaction kind, the `txn_type` string restricted to its two legal values. -/
inductive TxnType where
  | BUY
  | SELL
deriving DecidableEq

/-- The `Transaction` record of `bushra_p2.py` (timestamp omitted: no claim
mentions it).  The constructor validation (`amount <= 0 or price <= 0` raises
`ValueError`) is modelled at the call sites in `buy`/`sell`. -/
structure Transaction where
  txn_type : TxnType
  crypto_id : String
  amount : ℚ
  price : ℚ
  profit : ℚ
deriving DecidableEq

/-- The mutable state of a `CryptoPortfolio`: `_holdings` and `_transactions`. -/
structure CryptoPortfolio where
  holdings : Holdings
  transactions : List Transaction
deriving DecidableEq

/-- The freshly constructed portfolio. -/
def emptyPortfolio : CryptoPortfolio := ⟨[], []⟩

/-- Observable outcome of a `buy`/`sell` call: normal return, the early
`return` after a failed price fetch, or one of the Python exceptions
(`ValueError` from the `current_price` setter on a negative price,
`ZeroDivisionError` from the average-cost division, `ValueError` from the
`Transaction` constructor on non-positive amount or price), or the early
`return` on insufficient holdings. -/
inductive Outcome where
  | ok
  | priceError
  | negativePrice
  | divByZero
  | invalidArg
  | insufficientHoldings
deriving DecidableEq

/-- `CryptoPortfolio.buy` (lines 147-167).  The price source is the lookup
`lk` (the result of `get_current_price`).  Mirrors the statement order of the
Python body: price fetch and early return, the `current_price` setter (raises
on a negative price before any mutation), the holdings update (the in-place
`prev['amount']` write happens before the division that can raise
`ZeroDivisionError`), and only then the `Transaction` construction, whose
validation failure leaves the holdings already mutated. -/
def buy (lk : String → Option ℚ) (p : CryptoPortfolio) (cid : String)
    (amt : ℚ) : CryptoPortfolio × Outcome :=
  match lk cid with
  | none => (p, Outcome.priceError)
  | some price =>
    if price < 0 then (p, Outcome.negativePrice)
    else
      match lookupH p.holdings cid with
      | some prev =>
        let totalValue := prev.amount * prev.avg_buy_price + amt * price
        let totalAmount := prev.amount + amt
        if totalAmount = 0 then
          (⟨updateH p.holdings cid ⟨0, prev.avg_buy_price⟩, p.transactions⟩,
            Outcome.divByZero)
        else
          let hs := updateH p.holdings cid ⟨totalAmount, totalValue / totalAmount⟩
          if amt ≤ 0 ∨ price ≤ 0 then (⟨hs, p.transactions⟩, Outcome.invalidArg)
          else (⟨hs, p.transactions ++ [⟨TxnType.BUY, cid, amt, price, 0⟩]⟩,
            Outcome.ok)
      | none =>
        let hs := updateH p.holdings cid ⟨amt, price⟩
        if amt ≤ 0 ∨ price ≤ 0 then (⟨hs, p.transactions⟩, Outcome.invalidArg)
        else (⟨hs, p.transactions ++ [⟨TxnType.BUY, cid, amt, price, 0⟩]⟩,
          Outcome.ok)

/-- `CryptoPortfolio.sell` (lines 169-187).  The insufficient-holdings check
(the same early return whether the asset is unknown or underfunded) precedes
the price fetch; `prices.get(cid, 0)` defaults a missing price to `0`; the
holdings decrement and the zero-quantity deletion happen before the
`Transaction` construction, whose validation failure leaves them in place. -/
def sell (lk : String → Option ℚ) (p : CryptoPortfolio) (cid : String)
    (amt : ℚ) : CryptoPortfolio × Outcome :=
  match lookupH p.holdings cid with
  | none => (p, Outcome.insufficientHoldings)
  | some h =>
    if h.amount < amt then (p, Outcome.insufficientHoldings)
    else
      let price := (lk cid).getD 0
      let profit := amt * price - amt * h.avg_buy_price
      let newAmt := h.amount - amt
      let hs := if newAmt = 0 then eraseH p.holdings cid
        else updateH p.holdings cid ⟨newAmt, h.avg_buy_price⟩
      if amt ≤ 0 ∨ price ≤ 0 then (⟨hs, p.transactions⟩, Outcome.invalidArg)
      else (⟨hs, p.transactions ++ [⟨TxnType.SELL, cid, amt, price, profit⟩]⟩,
        Outcome.ok)

/-- `CryptoPortfolio.portfolio_value` (lines 189-206): accumulates
`amount * prices.get(cid, 0)` over the holdings in order and returns the
total; the method writes no field, so the returned state is the input state. -/
def portfolio_value (lk : String → Option ℚ) (p : CryptoPortfolio) :
    ℚ × CryptoPortfolio :=
  (p.holdings.foldl (fun total e => total + e.2.amount * ((lk e.1).getD 0)) 0, p)

/-- States reachable from a fresh portfolio by any sequence of `buy`/`sell`
calls, keeping the state a call leaves behind whatever its outcome (Python
mutations persist across a raised exception). -/
inductive Reachable : CryptoPortfolio → Prop where
  | empty : Reachable emptyPortfolio
  | buy (p : CryptoPortfolio) (lk : String → Option ℚ) (cid : String) (amt : ℚ) :
      Reachable p → Reachable (buy lk p cid amt).1
  | sell (p : CryptoPortfolio) (lk : String → Option ℚ) (cid : String) (amt : ℚ) :
      Reachable p → Reachable (sell lk p cid amt).1

/-- States reachable from a fresh portfolio by sequences of `buy`/`sell`
calls that all complete normally. -/
inductive ReachableOk : CryptoPortfolio → Prop where
  | empty : ReachableOk emptyPortfolio
  | buy (p : CryptoPortfolio) (lk : String → Option ℚ) (cid : String) (amt : ℚ) :
      ReachableOk p → (buy lk p cid amt).2 = Outcome.ok →
      ReachableOk (buy lk p cid amt).1
  | sell (p : CryptoPortfolio) (lk : String → Option ℚ) (cid : String) (amt : ℚ) :
      ReachableOk p → (sell lk p cid amt).2 = Outcome.ok →
      ReachableOk (sell lk p cid amt).1

/-- Replay of one recorded transaction: re-issue the call it records against
a price source resolving its asset to its recorded price. -/
def replayStep (p : CryptoPortfolio) (t : Transaction) : CryptoPortfolio :=
  match t.txn_type with
  | TxnType.BUY =>
      (buy (fun c => if c = t.crypto_id then some t.price else none) p
        t.crypto_id t.amount).1
  | TxnType.SELL =>
      (sell (fun c => if c = t.crypto_id then some t.price else none) p
        t.crypto_id t.amount).1

/-- Replay a recorded history in order from a fresh portfolio. -/
def replay (txns : List Transaction) : CryptoPortfolio :=
  txns.foldl replayStep emptyPortfolio

/-- Derived description of the holdings mutation a `buy` performs once the
price resolved and passed the setter (read off lines 156-163). -/
def buyUpdate (hs : Holdings) (cid : String) (amt price : ℚ) : Holdings :=
  match lookupH hs cid with
  | some prev =>
      if prev.amount + amt = 0 then updateH hs cid ⟨0, prev.avg_buy_price⟩
      else updateH hs cid
        ⟨prev.amount + amt,
          (prev.amount * prev.avg_buy_price + amt * price) / (prev.amount + amt)⟩
  | none => updateH hs cid ⟨amt, price⟩

/-- Derived description of the holdings mutation a `sell` performs
(read off lines 171-183). -/
def sellUpdate (hs : Holdings) (cid : String) (amt : ℚ) : Holdings :=
  match lookupH hs cid with
  | none => hs
  | some h =>
      if h.amount < amt then hs
      else if h.amount - amt = 0 then eraseH hs cid
      else updateH hs cid ⟨h.amount - amt, h.avg_buy_price⟩

/-- Every entry of the holdings mapping has a strictly positive amount. -/
def HoldingsPos (hs : Holdings) : Prop := ∀ e ∈ hs, 0 < e.2.amount

/-- Price source resolving every asset to 10. -/
def lkTen : String → Option ℚ := fun _ => some 10

/-- Price source resolving every asset to 5. -/
def lkFive : String → Option ℚ := fun _ => some 5

/-- Price source resolving no asset at all. -/
def lkNone : String → Option ℚ := fun _ => none

/-- Price source quoting btc at 100. -/
def lkB100 : String → Option ℚ := fun c => if c = "btc" then some 100 else none

/-- Price source quoting btc at 200. -/
def lkB200 : String → Option ℚ := fun c => if c = "btc" then some 200 else none

/-- Price source quoting btc at 180. -/
def lkB180 : String → Option ℚ := fun c => if c = "btc" then some 180 else none

/-- Portfolio after buying 1 btc at 100 and then 1 btc at 200. -/
def pAfterTwoBuys : CryptoPortfolio :=
  (buy lkB200 (buy lkB100 emptyPortfolio "btc" 1).1 "btc" 1).1

/-- State left behind by a buy of a negative amount at price 10: the failed
validation in the `Transaction` constructor does not undo the holdings write. -/
def badBuyState : CryptoPortfolio := (buy lkTen emptyPortfolio "A" (-1)).1

/-- State left behind by a buy of amount -2 at price 5, for the replay claim. -/
def badReplayState : CryptoPortfolio := (buy lkFive emptyPortfolio "B" (-2)).1

/-- Portfolio holding 3 units of A and 2 units of B. -/
def pAB : CryptoPortfolio := ⟨[("A", ⟨3, 1⟩), ("B", ⟨2, 1⟩)], []⟩

/-- Price source quoting only A, at 10. -/
def lkAOnly : String → Option ℚ := fun c => if c = "A" then some 10 else none

/-- Price source quoting A at 10 and everything else at 0. -/
def lkAZero : String → Option ℚ := fun c => if c = "A" then some 10 else some 0

theorem lookupH_updateH_self (hs : Holdings) (k : String) (v : Holding) :
    lookupH (updateH hs k v) k = some v := by
  induction hs with
  | nil => simp [updateH, lookupH]
  | cons e rest ih =>
    obtain ⟨k2, w⟩ := e
    by_cases h : k2 = k
    · simp [updateH, h, lookupH]
    · simp [updateH, h, lookupH, ih]

theorem lookupH_mem {hs : Holdings} {k : String} {v : Holding}
    (h : lookupH hs k = some v) : (k, v) ∈ hs := by
  induction hs with
  | nil => simp [lookupH] at h
  | cons e rest ih =>
    obtain ⟨k2, w⟩ := e
    by_cases hk : k2 = k
    · simp [lookupH, hk] at h
      subst hk h
      exact List.mem_cons_self _ _
    · simp [lookupH, hk] at h
      exact List.mem_cons_of_mem _ (ih h)

theorem mem_updateH {hs : Holdings} {k : String} {v : Holding}
    {e : String × Holding} (h : e ∈ updateH hs k v) : e = (k, v) ∨ e ∈ hs := by
  induction hs with
  | nil =>
    rw [updateH] at h
    exact Or.inl (List.mem_singleton.mp h)
  | cons f rest ih =>
    obtain ⟨k2, w⟩ := f
    by_cases hk : k2 = k
    · rw [updateH, if_pos hk] at h
      rcases List.mem_cons.mp h with h | h
      · exact Or.inl h
      · exact Or.inr (List.mem_cons_of_mem _ h)
    · rw [updateH, if_neg hk] at h
      rcases List.mem_cons.mp h with h | h
      · exact Or.inr (by simp [h])
      · rcases ih h with h2 | h2
        · exact Or.inl h2
        · exact Or.inr (List.mem_cons_of_mem _ h2)

theorem mem_eraseH {hs : Holdings} {k : String} {e : String × Holding}
    (h : e ∈ eraseH hs k) : e ∈ hs := by
  induction hs with
  | nil =>
    rw [eraseH] at h
    exact h
  | cons f rest ih =>
    obtain ⟨k2, w⟩ := f
    by_cases hk : k2 = k
    · rw [eraseH, if_pos hk] at h
      exact List.mem_cons_of_mem _ h
    · rw [eraseH, if_neg hk] at h
      rcases List.mem_cons.mp h with h | h
      · exact by simp [h]
      · exact List.mem_cons_of_mem _ (ih h)

theorem buy_fst_holdings (lk : String → Option ℚ) (p : CryptoPortfolio)
    (cid : String) (amt : ℚ) :
    (buy lk p cid amt).1.holdings =
      match lk cid with
      | none => p.holdings
      | some price =>
          if price < 0 then p.holdings else buyUpdate p.holdings cid amt price := by
  rcases hlk : lk cid with _ | price
  · simp [buy, hlk]
  · by_cases hneg : price < 0
    · simp [buy, hlk, hneg]
    · rcases hh : lookupH p.holdings cid with _ | prev
      · by_cases hi : amt ≤ 0 ∨ price ≤ 0 <;>
          simp [buy, hlk, hneg, hh, hi, buyUpdate]
      · by_cases hz : prev.amount + amt = 0
        · simp [buy, hlk, hneg, hh, hz, buyUpdate]
        · by_cases hi : amt ≤ 0 ∨ price ≤ 0 <;>
            simp [buy, hlk, hneg, hh, hz, hi, buyUpdate]

theorem sell_fst_holdings (lk : String → Option ℚ) (p : CryptoPortfolio)
    (cid : String) (amt : ℚ) :
    (sell lk p cid amt).1.holdings = sellUpdate p.holdings cid amt := by
  rcases hh : lookupH p.holdings cid with _ | h
  · simp [sell, hh, sellUpdate]
  · by_cases hlt : h.amount < amt
    · simp [sell, hh, hlt, sellUpdate]
    · by_cases hz : h.amount - amt = 0 <;>
        by_cases hi : amt ≤ 0 ∨ (lk cid).getD 0 ≤ 0 <;>
          simp [sell, hh, hlt, hz, hi, sellUpdate]

theorem buy_ok_elim (lk : String → Option ℚ) (p : CryptoPortfolio)
    (cid : String) (amt : ℚ) (hok : (buy lk p cid amt).2 = Outcome.ok) :
    ∃ price, lk cid = some price ∧ 0 < price ∧ 0 < amt ∧
      (buy lk p cid amt).1 =
        ⟨buyUpdate p.holdings cid amt price,
          p.transactions ++ [⟨TxnType.BUY, cid, amt, price, 0⟩]⟩ := by
  rcases hlk : lk cid with _ | price
  · simp [buy, hlk] at hok
  · by_cases hneg : price < 0
    · simp [buy, hlk, hneg] at hok
    · rcases hh : lookupH p.holdings cid with _ | prev
      · by_cases hi : amt ≤ 0 ∨ price ≤ 0
        · simp [buy, hlk, hneg, hh, hi] at hok
        · push_neg at hi
          refine ⟨price, rfl, lt_of_le_of_ne (not_lt.mp hneg) ?_, hi.1, ?_⟩
          · intro h0
            exact absurd h0.symm.le (not_le.mpr hi.2)
          · simp [buy, hlk, hneg, hh, buyUpdate,
              not_or.mpr ⟨not_le.mpr hi.1, not_le.mpr hi.2⟩]
      · by_cases hz : prev.amount + amt = 0
        · simp [buy, hlk, hneg, hh, hz] at hok
        · by_cases hi : amt ≤ 0 ∨ price ≤ 0
          · simp [buy, hlk, hneg, hh, hz, hi] at hok
          · push_neg at hi
            refine ⟨price, rfl, lt_of_le_of_ne (not_lt.mp hneg) ?_, hi.1, ?_⟩
            · intro h0
              exact absurd h0.symm.le (not_le.mpr hi.2)
            · simp [buy, hlk, hneg, hh, hz, buyUpdate,
                not_or.mpr ⟨not_le.mpr hi.1, not_le.mpr hi.2⟩]

theorem sell_ok_elim (lk : String → Option ℚ) (p : CryptoPortfolio)
    (cid : String) (amt : ℚ) (hok : (sell lk p cid amt).2 = Outcome.ok) :
    ∃ hld, lookupH p.holdings cid = some hld ∧ amt ≤ hld.amount ∧ 0 < amt ∧
      0 < (lk cid).getD 0 ∧
      (sell lk p cid amt).1 =
        ⟨sellUpdate p.holdings cid amt,
          p.transactions ++ [⟨TxnType.SELL, cid, amt, (lk cid).getD 0,
            amt * (lk cid).getD 0 - amt * hld.avg_buy_price⟩]⟩ := by
  rcases hh : lookupH p.holdings cid with _ | hld
  · simp [sell, hh] at hok
  · by_cases hlt : hld.amount < amt
    · simp [sell, hh, hlt] at hok
    · by_cases hi : amt ≤ 0 ∨ (lk cid).getD 0 ≤ 0
      · by_cases hz : hld.amount - amt = 0 <;> simp [sell, hh, hlt, hz, hi] at hok
      · push_neg at hi
        refine ⟨hld, rfl, not_lt.mp hlt, hi.1, hi.2, ?_⟩
        by_cases hz : hld.amount - amt = 0 <;>
          simp [sell, hh, hlt, hz, sellUpdate,
            not_or.mpr ⟨not_le.mpr hi.1, not_le.mpr hi.2⟩]

theorem buy_fst_holdings_some (lk : String → Option ℚ) (p : CryptoPortfolio)
    (cid : String) (amt price : ℚ) (hlk : lk cid = some price)
    (hneg : ¬ price < 0) :
    (buy lk p cid amt).1.holdings = buyUpdate p.holdings cid amt price := by
  rw [buy_fst_holdings, hlk]
  exact if_neg hneg

theorem buy_fst_holdings_congr (lk₁ lk₂ : String → Option ℚ)
    (p₁ p₂ : CryptoPortfolio) (cid : String) (amt : ℚ)
    (hh : p₁.holdings = p₂.holdings) (hl : lk₁ cid = lk₂ cid) :
    (buy lk₁ p₁ cid amt).1.holdings = (buy lk₂ p₂ cid amt).1.holdings := by
  rw [buy_fst_holdings, buy_fst_holdings, hl, hh]

theorem sell_fst_holdings_congr (lk₁ lk₂ : String → Option ℚ)
    (p₁ p₂ : CryptoPortfolio) (cid : String) (amt : ℚ)
    (hh : p₁.holdings = p₂.holdings) :
    (sell lk₁ p₁ cid amt).1.holdings = (sell lk₂ p₂ cid amt).1.holdings := by
  rw [sell_fst_holdings, sell_fst_holdings, hh]

theorem holdingsPos_buyUpdate {hs : Holdings} {cid : String} {amt price : ℚ}
    (hpos : HoldingsPos hs) (ha : 0 < amt) :
    HoldingsPos (buyUpdate hs cid amt price) := by
  intro e he
  rcases hh : lookupH hs cid with _ | prev
  · simp only [buyUpdate, hh] at he
    rcases mem_updateH he with rfl | h2
    · exact ha
    · exact hpos e h2
  · have hprev : 0 < prev.amount := hpos (cid, prev) (lookupH_mem hh)
    have hz : prev.amount + amt ≠ 0 := ne_of_gt (by linarith)
    simp only [buyUpdate, hh, if_neg hz] at he
    rcases mem_updateH he with rfl | h2
    · show 0 < prev.amount + amt
      linarith
    · exact hpos e h2

theorem holdingsPos_sellUpdate {hs : Holdings} {cid : String} {amt : ℚ}
    (hpos : HoldingsPos hs) : HoldingsPos (sellUpdate hs cid amt) := by
  intro e he
  rcases hh : lookupH hs cid with _ | h
  · simp only [sellUpdate, hh] at he
    exact hpos e he
  · by_cases hlt : h.amount < amt
    · simp only [sellUpdate, hh, if_pos hlt] at he
      exact hpos e he
    · by_cases hz : h.amount - amt = 0
      · simp only [sellUpdate, hh, if_neg hlt, if_pos hz] at he
        exact hpos e (mem_eraseH he)
      · simp only [sellUpdate, hh, if_neg hlt, if_neg hz] at he
        rcases mem_updateH he with rfl | h2
        · show 0 < h.amount - amt
          have hle : amt ≤ h.amount := not_lt.mp hlt
          exact lt_of_le_of_ne (by linarith) (Ne.symm hz)
        · exact hpos e h2

theorem reachableOk_holdingsPos {p : CryptoPortfolio} (h : ReachableOk p) :
    HoldingsPos p.holdings := by
  induction h with
  | empty =>
    intro e he
    simp [emptyPortfolio] at he
  | buy p lk cid amt _ hok ih =>
    obtain ⟨price, _, _, ha, heq⟩ := buy_ok_elim lk p cid amt hok
    rw [heq]
    exact holdingsPos_buyUpdate ih ha
  | sell p lk cid amt _ _ ih =>
    rw [sell_fst_holdings]
    exact holdingsPos_sellUpdate ih

theorem replay_append (txns : List Transaction) (t : Transaction) :
    replay (txns ++ [t]) = replayStep (replay txns) t := by
  simp [replay, List.foldl_append]

theorem buy_transactions_mem (lk : String → Option ℚ) (p : CryptoPortfolio)
    (cid : String) (amt : ℚ) (t : Transaction)
    (ht : t ∈ (buy lk p cid amt).1.transactions) :
    t ∈ p.transactions ∨ t = ⟨TxnType.BUY, cid, amt, (lk cid).getD 0, 0⟩ := by
  rcases hlk : lk cid with _ | price
  · simp [buy, hlk] at ht
    exact Or.inl ht
  · by_cases hneg : price < 0
    · simp [buy, hlk, hneg] at ht
      exact Or.inl ht
    · rcases hh : lookupH p.holdings cid with _ | prev
      · by_cases hi : amt ≤ 0 ∨ price ≤ 0
        · simp [buy, hlk, hneg, hh, hi] at ht
          exact Or.inl ht
        · simp [buy, hlk, hneg, hh, hi] at ht
          rcases ht with ht | ht
          · exact Or.inl ht
          · exact Or.inr (by simp [ht, hlk])
      · by_cases hz : prev.amount + amt = 0
        · simp [buy, hlk, hneg, hh, hz] at ht
          exact Or.inl ht
        · by_cases hi : amt ≤ 0 ∨ price ≤ 0
          · simp [buy, hlk, hneg, hh, hz, hi] at ht
            exact Or.inl ht
          · simp [buy, hlk, hneg, hh, hz, hi] at ht
            rcases ht with ht | ht
            · exact Or.inl ht
            · exact Or.inr (by simp [ht, hlk])

theorem foldl_add_map_sum (f : String × Holding → ℚ) (hs : Holdings) (a : ℚ) :
    hs.foldl (fun t e => t + f e) a = a + (hs.map f).sum := by
  induction hs generalizing a with
  | nil => simp
  | cons e rest ih => simp [ih, add_assoc]

/-- C1: a buy with positive quantity and positive resolved unit price on an
existing positive holding recomputes the weighted average (new quantity the
sum, new average cost the quantity-weighted mean of old cost and unit
price); with no prior holding it creates one whose average cost is the unit
price. -/
theorem buy_weighted_average (lk : String → Option ℚ) (p : CryptoPortfolio)
    (cid : String) (amt price : ℚ) (hlk : lk cid = some price)
    (hp : 0 < price) (ha : 0 < amt) :
    (∀ prev, lookupH p.holdings cid = some prev → 0 < prev.amount →
      lookupH (buy lk p cid amt).1.holdings cid =
        some ⟨prev.amount + amt,
          (prev.amount * prev.avg_buy_price + amt * price) /
            (prev.amount + amt)⟩) ∧
    (lookupH p.holdings cid = none →
      lookupH (buy lk p cid amt).1.holdings cid = some ⟨amt, price⟩) := by
  have hneg : ¬ price < 0 := not_lt.mpr hp.le
  constructor
  · intro prev hh hprev
    rw [buy_fst_holdings_some lk p cid amt price hlk hneg]
    have hz : prev.amount + amt ≠ 0 := ne_of_gt (by linarith)
    simp only [buyUpdate, hh, if_neg hz]
    exact lookupH_updateH_self _ _ _
  · intro hh
    rw [buy_fst_holdings_some lk p cid amt price hlk hneg]
    simp only [buyUpdate, hh]
    exact lookupH_updateH_self _ _ _

/-- C1 witness: buying 1 btc at 100 and then 1 btc at 200 leaves quantity 2
at average cost 150, by the weighted-average theorem applied to the second
buy. -/
theorem buy_weighted_average_witness :
    lookupH pAfterTwoBuys.holdings "btc" = some ⟨2, 150⟩ := by
  have hprev : lookupH (buy lkB100 emptyPortfolio "btc" 1).1.holdings "btc"
      = some ⟨1, 100⟩ := by
    norm_num [buy, lkB100, emptyPortfolio, lookupH, updateH]
  have h2 := (buy_weighted_average lkB200 (buy lkB100 emptyPortfolio "btc" 1).1
      "btc" 1 200 (by simp [lkB200]) (by norm_num) (by norm_num)).1
      ⟨1, 100⟩ hprev (by norm_num)
  show lookupH (buy lkB200 (buy lkB100 emptyPortfolio "btc" 1).1
      "btc" 1).1.holdings "btc" = some ⟨2, 150⟩
  rw [h2]
  norm_num [Holding.mk.injEq]

/-- C2: under the sell preconditions (positive quantity, positive resolved
unit price, sufficient holding) the appended SELL transaction carries
realized profit (unit price minus the average cost before the sale) times
quantity, and any transaction a buy appends is a BUY carrying profit 0. -/
theorem sell_profit_formula (lk : String → Option ℚ) (p : CryptoPortfolio)
    (cid : String) (amt price : ℚ) (hld : Holding)
    (hh : lookupH p.holdings cid = some hld) (hq : amt ≤ hld.amount)
    (ha : 0 < amt) (hlk : lk cid = some price) (hp : 0 < price) :
    (sell lk p cid amt).1.transactions =
      p.transactions ++
        [⟨TxnType.SELL, cid, amt, price, (price - hld.avg_buy_price) * amt⟩] ∧
    ∀ (lk₂ : String → Option ℚ) (p₂ : CryptoPortfolio) (cid₂ : String)
      (amt₂ : ℚ) (t : Transaction),
      t ∈ (buy lk₂ p₂ cid₂ amt₂).1.transactions → t ∉ p₂.transactions →
      t.txn_type = TxnType.BUY ∧ t.profit = 0 := by
  constructor
  · have hlt : ¬ hld.amount < amt := not_lt.mpr hq
    have hgd : (lk cid).getD 0 = price := by
      rw [hlk]
      rfl
    have hi : ¬ (amt ≤ 0 ∨ (lk cid).getD 0 ≤ 0) := by
      rw [hgd]
      push_neg
      exact ⟨ha, hp⟩
    have hprofit : amt * price - amt * hld.avg_buy_price
        = (price - hld.avg_buy_price) * amt := by ring
    have hi2 : ¬ (amt ≤ 0 ∨ price ≤ 0) := by
      push_neg
      exact ⟨ha, hp⟩
    simp [sell, hh, hlt, hi, hi2, hgd, hprofit]
  · intro lk₂ p₂ cid₂ amt₂ t ht hnt
    rcases buy_transactions_mem lk₂ p₂ cid₂ amt₂ t ht with h | h
    · exact absurd h hnt
    · subst h
      exact ⟨rfl, rfl⟩

/-- C2 witness: after buying 1 btc at 100 and 1 btc at 200, selling 1 btc at
180 appends a SELL transaction with realized profit 30. -/
theorem sell_profit_formula_witness :
    (sell lkB180 pAfterTwoBuys "btc" 1).1.transactions =
      pAfterTwoBuys.transactions ++ [⟨TxnType.SELL, "btc", 1, 180, 30⟩] := by
  have hh : lookupH pAfterTwoBuys.holdings "btc" = some ⟨2, 150⟩ := by
    norm_num [pAfterTwoBuys, buy, lkB100, lkB200, emptyPortfolio, lookupH,
      updateH]
  have h := (sell_profit_formula lkB180 pAfterTwoBuys "btc" 1 180 ⟨2, 150⟩ hh
      (by norm_num) (by norm_num) (by simp [lkB180]) (by norm_num)).1
  rw [h]
  norm_num [Transaction.mk.injEq]

/-- C3 counterexample: the state left by the single call buy A with amount
-1 at resolved price 10 is reachable by a buy call, yet its holdings mapping
holds the entry A with the negative quantity -1, refuting the claim that
quantities stay nonnegative across all sequences of buy and sell calls. -/
theorem reachable_negative_holding :
    Reachable badBuyState ∧ badBuyState.holdings = [("A", ⟨-1, 10⟩)] ∧
      ¬ (0 : ℚ) ≤ -1 := by
  refine ⟨Reachable.buy emptyPortfolio lkTen "A" (-1) Reachable.empty, ?_,
    by norm_num⟩
  norm_num [badBuyState, buy, lkTen, emptyPortfolio, lookupH, updateH]

/-- C3 (amended to sequences of calls that complete normally): in every
state reachable by successful buy and sell calls, every entry of the
holdings mapping has a nonnegative quantity, and no entry with quantity zero
remains. -/
theorem holdings_nonneg_no_zero_entry {p : CryptoPortfolio}
    (h : ReachableOk p) :
    ∀ e ∈ p.holdings, 0 ≤ e.2.amount ∧ e.2.amount ≠ 0 := by
  intro e he
  have hp := reachableOk_holdingsPos h e he
  exact ⟨hp.le, ne_of_gt hp⟩

/-- C3 witness: the state after the successful buy of 2 A at price 10 is
reachable by ok calls and its single entry has the nonnegative, nonzero
quantity 2. -/
theorem holdings_nonneg_no_zero_entry_witness :
    (0 : ℚ) ≤ (("A", (⟨2, 10⟩ : Holding)) : String × Holding).2.amount ∧
      (("A", (⟨2, 10⟩ : Holding)) : String × Holding).2.amount ≠ 0 := by
  have hreach : ReachableOk (buy lkTen emptyPortfolio "A" 2).1 :=
    ReachableOk.buy emptyPortfolio lkTen "A" 2 ReachableOk.empty (by decide)
  exact holdings_nonneg_no_zero_entry hreach ("A", ⟨2, 10⟩)
    (by norm_num [buy, lkTen, emptyPortfolio, lookupH, updateH])

/-- C4 counterexample: a sell with no holding at all fails with exactly the
same InsufficientHoldings outcome as a sell against an underfunded holding
(the code prints one shared error and returns); there is no separate
UnknownAsset failure, refuting the claimed distinction, though the state is
indeed unchanged. -/
theorem sell_unknown_asset_not_distinguished :
    (sell lkTen emptyPortfolio "X" 1).2 = Outcome.insufficientHoldings ∧
      (sell lkTen ⟨[("X", ⟨1, 10⟩)], []⟩ "X" 2).2 =
        Outcome.insufficientHoldings ∧
      (sell lkTen emptyPortfolio "X" 1).1 = emptyPortfolio := by
  refine ⟨by decide, by decide, by decide⟩

/-- C4 (amended: no distinct UnknownAsset case): whenever no holding exists
for the asset or the held quantity is below the requested quantity, sell
fails with InsufficientHoldings and returns the holdings mapping and the
history exactly unchanged. -/
theorem sell_insufficient_unchanged (lk : String → Option ℚ)
    (p : CryptoPortfolio) (cid : String) (amt : ℚ)
    (h : lookupH p.holdings cid = none ∨
      ∃ hld, lookupH p.holdings cid = some hld ∧ hld.amount < amt) :
    sell lk p cid amt = (p, Outcome.insufficientHoldings) := by
  rcases h with h | ⟨hld, hh, hlt⟩
  · simp [sell, h]
  · simp [sell, hh, hlt]

/-- C4 witness: selling 1 X against a fresh portfolio fails with
InsufficientHoldings and leaves the state unchanged. -/
theorem sell_insufficient_unchanged_witness :
    sell lkTen emptyPortfolio "X" 1 =
      (emptyPortfolio, Outcome.insufficientHoldings) :=
  sell_insufficient_unchanged lkTen emptyPortfolio "X" 1 (Or.inl rfl)

/-- C5: buying -1 A at resolved price 10 from a fresh portfolio does fail
with the InvalidArgument ValueError raised by the Transaction constructor,
but only after the holdings write: the entry A with amount -1 is left in the
mapping while the history stays empty, contradicting the claimed atomicity
of failure. -/
theorem buy_invalid_argument_mutates :
    buy lkTen emptyPortfolio "A" (-1) =
      (⟨[("A", ⟨-1, 10⟩)], []⟩, Outcome.invalidArg) := by
  decide

/-- C6: a successful sell that leaves a positive remaining quantity
decrements the quantity and leaves the average cost exactly as it was
before the sale. -/
theorem sell_preserves_average_cost (lk : String → Option ℚ)
    (p : CryptoPortfolio) (cid : String) (amt price : ℚ) (hld : Holding)
    (hh : lookupH p.holdings cid = some hld) (hlk : lk cid = some price)
    (hp : 0 < price) (ha : 0 < amt) (hlt : amt < hld.amount) :
    lookupH (sell lk p cid amt).1.holdings cid =
      some ⟨hld.amount - amt, hld.avg_buy_price⟩ ∧
    (sell lk p cid amt).2 = Outcome.ok := by
  have hnlt : ¬ hld.amount < amt := not_lt.mpr hlt.le
  have hz : ¬ hld.amount - amt = 0 := by
    intro h0
    have := sub_eq_zero.mp h0
    exact absurd this (ne_of_gt hlt)
  have hgd : (lk cid).getD 0 = price := by
    rw [hlk]
    rfl
  have hi : ¬ (amt ≤ 0 ∨ (lk cid).getD 0 ≤ 0) := by
    rw [hgd]
    push_neg
    exact ⟨ha, hp⟩
  constructor
  · rw [sell_fst_holdings]
    simp only [sellUpdate, hh, if_neg hnlt, if_neg hz]
    exact lookupH_updateH_self _ _ _
  · simp [sell, hh, hnlt, hz, hi]

/-- C6 witness: after buying 1 btc at 100 and 1 btc at 200, selling 1 btc at
180 leaves quantity 1 at the unchanged average cost 150. -/
theorem sell_preserves_average_cost_witness :
    lookupH (sell lkB180 pAfterTwoBuys "btc" 1).1.holdings "btc" =
      some ⟨1, 150⟩ := by
  have hh : lookupH pAfterTwoBuys.holdings "btc" = some ⟨2, 150⟩ := by
    norm_num [pAfterTwoBuys, buy, lkB100, lkB200, emptyPortfolio, lookupH,
      updateH]
  have h := (sell_preserves_average_cost lkB180 pAfterTwoBuys "btc" 1 180
      ⟨2, 150⟩ hh (by simp [lkB180]) (by norm_num) (by norm_num)
      (by norm_num)).1
  rw [h]
  norm_num [Holding.mk.injEq]

/-- C7 counterexample: valuing holdings of A (3 units) and B (2 units)
against a source lacking a price for B returns exactly the same result as
valuing them with B priced 0 — the bare total 30 and the untouched state —
so nothing in the result flags B as price-unavailable. -/
theorem valuation_missing_price_not_flagged :
    portfolio_value lkAOnly pAB = portfolio_value lkAZero pAB ∧
      (portfolio_value lkAOnly pAB).1 = 30 := by
  have hBA : ¬ (("B" : String) = "A") := by decide
  constructor <;> norm_num [portfolio_value, pAB, lkAOnly, lkAZero, hBA]

/-- C7 (amended): an asset whose price is missing contributes 0 to the total
but is not flagged anywhere in the result: the valuation with the price
absent is identical to the valuation with that price present as 0. -/
theorem portfolio_value_missing_as_zero (lk : String → Option ℚ)
    (p : CryptoPortfolio) (cid : String) (h : lk cid = none) :
    portfolio_value lk p =
      portfolio_value (fun c => if c = cid then some 0 else lk c) p := by
  have hf : (fun (total : ℚ) (e : String × Holding) =>
        total + e.2.amount * ((lk e.1).getD 0)) =
      (fun total e => total + e.2.amount *
        (((fun c => if c = cid then some 0 else lk c) e.1).getD 0)) := by
    funext total e
    by_cases he : e.1 = cid
    · simp [he, h]
    · simp [he]
  unfold portfolio_value
  rw [hf]

/-- C7 witness: for the holdings of A and B with only A priced, the
valuation equals the valuation with B explicitly priced 0. -/
theorem portfolio_value_missing_as_zero_witness :
    portfolio_value lkAOnly pAB =
      portfolio_value (fun c => if c = "B" then some 0 else lkAOnly c) pAB :=
  portfolio_value_missing_as_zero lkAOnly pAB "B" (by simp [lkAOnly])

/-- C8: valuation returns the sum over the holdings, in order, of quantity
times the looked-up price with 0 for an absent price, and performs no
mutation: the state it returns is the input state. -/
theorem portfolio_value_total_and_pure (lk : String → Option ℚ)
    (p : CryptoPortfolio) :
    (portfolio_value lk p).1 =
        (p.holdings.map (fun e => e.2.amount * ((lk e.1).getD 0))).sum ∧
      (portfolio_value lk p).2 = p := by
  refine ⟨?_, rfl⟩
  exact (foldl_add_map_sum (fun e => e.2.amount * ((lk e.1).getD 0))
    p.holdings 0).trans (zero_add _)

/-- C9 counterexample: the reachable state left by the failed call buy B -2
at resolved price 5 has an empty history but a nonempty holdings mapping, so
replaying its recorded history from a fresh ledger does not reproduce its
holdings. -/
theorem replay_not_reproducing :
    Reachable badReplayState ∧ badReplayState.transactions = [] ∧
      (replay badReplayState.transactions).holdings = [] ∧
      badReplayState.holdings = [("B", ⟨-2, 5⟩)] ∧
      ([("B", (⟨-2, 5⟩ : Holding))] : Holdings) ≠ [] := by
  refine ⟨Reachable.buy emptyPortfolio lkFive "B" (-2) Reachable.empty,
    by decide, by decide, by decide, by decide⟩

/-- C9 (amended to states reached by successful calls): replaying the
recorded transaction history, each transaction against a price source
resolving its asset to its recorded price, reproduces the holdings mapping
exactly. -/
theorem replay_reproduces_holdings {p : CryptoPortfolio}
    (h : ReachableOk p) :
    (replay p.transactions).holdings = p.holdings := by
  induction h with
  | empty => rfl
  | buy p lk cid amt _ hok ih =>
    obtain ⟨price, hlk, _, _, heq⟩ := buy_ok_elim lk p cid amt hok
    rw [heq]
    show (replay (p.transactions ++
        [⟨TxnType.BUY, cid, amt, price, 0⟩])).holdings =
      buyUpdate p.holdings cid amt price
    rw [replay_append]
    show (buy (fun c => if c = cid then some price else none)
        (replay p.transactions) cid amt).1.holdings = _
    rw [buy_fst_holdings_congr (fun c => if c = cid then some price else none)
        lk (replay p.transactions) p cid amt ih (by simp [hlk])]
    rw [heq]
  | sell p lk cid amt _ hok ih =>
    obtain ⟨hld, _, _, _, _, heq⟩ := sell_ok_elim lk p cid amt hok
    rw [heq]
    show (replay (p.transactions ++ [⟨TxnType.SELL, cid, amt, (lk cid).getD 0,
        amt * (lk cid).getD 0 - amt * hld.avg_buy_price⟩])).holdings =
      sellUpdate p.holdings cid amt
    rw [replay_append]
    show (sell (fun c => if c = cid then some ((lk cid).getD 0) else none)
        (replay p.transactions) cid amt).1.holdings = _
    rw [sell_fst_holdings_congr
        (fun c => if c = cid then some ((lk cid).getD 0) else none) lk
        (replay p.transactions) p cid amt ih]
    exact sell_fst_holdings lk p cid amt

/-- C9 witness: the state after the successful buy of 2 A at price 10 has
its holdings reproduced by replaying its one-transaction history. -/
theorem replay_reproduces_holdings_witness :
    (replay (buy lkTen emptyPortfolio "A" 2).1.transactions).holdings =
      (buy lkTen emptyPortfolio "A" 2).1.holdings :=
  replay_reproduces_holdings
    (ReachableOk.buy emptyPortfolio lkTen "A" 2 ReachableOk.empty (by decide))

/-- C10: a buy whose price source does not resolve the asset returns after
the failed price fetch with no mutation at all: the resulting state is the
input state and nothing is appended. -/
theorem buy_missing_price_no_mutation (lk : String → Option ℚ)
    (p : CryptoPortfolio) (cid : String) (amt : ℚ) (h : lk cid = none) :
    buy lk p cid amt = (p, Outcome.priceError) := by
  simp [buy, h]

/-- C10 witness: buying A against a source resolving nothing leaves the
portfolio of A and B untouched. -/
theorem buy_missing_price_no_mutation_witness :
    buy lkNone pAB "A" 1 = (pAB, Outcome.priceError) :=
  buy_missing_price_no_mutation lkNone pAB "A" 1 rfl

end Crypto
